import Mathlib

/-!
Verification of the cooperative-metaheuristic VRP solver (VRP-MAHM).

This file gives a shallow embedding, in Lean 4, of the core search components
of the repository: the domain oracle (`is_feasible_route`, `compute_route_cost`,
`evaluate_route`), the neighborhood generators (`swap_neighborhood`,
`two_opt_neighborhood`), the local-descent engine (`vnd`), the iterated local
search (`ils`), the shaking search (`vns`), the path-relinking bridge
(`path_relinking`), the shared blackboard (`GlobalBest`), the per-agent belief
store (`ActionStats` / `AgentBeliefs`), and the agent cognitive cycle
(`run_agent_cycle`).  Python exceptions are modelled by `Option` (a raise is
`none`); the randomness of the decision method, the shaking step and the
perturbation step is modelled by explicit oracle parameters; trip-time matrix
entries are natural numbers and `float('inf')` sentinels are the top element of
`WithTop ℕ`.  Theorems about each component follow the definitions.
-/

set_option autoImplicit false

/-- One node of the instance: an identifier and its boarding/alighting deltas
(`n_boardings`, `n_alighting` in the instance files). -/
structure RNode where
  id : ℕ
  n_boardings : ℤ
  n_alighting : ℤ
deriving DecidableEq, Repr

/-- The immutable problem instance: the node list, the trip-time matrix
(total function on identifiers; the program only ever indexes it in range) and
the vehicle capacity. -/
structure RInstance where
  nodes : List RNode
  trip_time_matrix : ℕ → ℕ → ℕ
  max_capacity : ℤ

/-- Identifiers of the non-depot ("active") nodes, as in
`{n["id"] for n in nodes if n["id"] != 0}`. -/
def active_node_ids (inst : RInstance) : List ℕ :=
  (inst.nodes.filter (fun n => n.id ≠ 0)).map (fun n => n.id)

/-- `node_map[v]`: the node with identifier `v`.  The Python dict comprehension
`{n["id"]: n for n in nodes}` lets a later duplicate id win, hence the search
over the reversed list. -/
def node_map (inst : RInstance) (v : ℕ) : Option RNode :=
  inst.nodes.reverse.find? (fun n => n.id = v)

/-- The running-load scan of `is_feasible_route`: walk the interior nodes,
accumulate `n_boardings - n_alighting`, and fail if the load ever leaves
`[0, max_capacity]`.  An unknown node id is a failure (a `KeyError` in the
source, unreachable after the set-cover check). -/
def load_ok (inst : RInstance) : List ℕ → ℤ → Bool
  | [], _ => true
  | v :: rest, load =>
    match node_map inst v with
    | none => false
    | some node =>
      let load2 := load + node.n_boardings - node.n_alighting
      if load2 < 0 ∨ load2 > inst.max_capacity then false
      else load_ok inst rest load2

/-- Interior of a route: `route[1:-1]`. -/
def route_interior (route : List ℕ) : List ℕ :=
  (route.drop 1).dropLast

/-- `is_feasible_route(route, instance)`: depot anchoring at both ends, exact
cover of the active node set by the interior, and the running-load bound.
An empty route (an `IndexError` on `route[0]` in the source) is infeasible. -/
def is_feasible_route (route : List ℕ) (inst : RInstance) : Bool :=
  match route.head?, route.getLast? with
  | some h, some l =>
    if h ≠ 0 ∨ l ≠ 0 then false
    else
      let route_nodes := route_interior route
      if ¬ (route_nodes.all (fun v => v ∈ active_node_ids inst) ∧
            (active_node_ids inst).all (fun v => v ∈ route_nodes)) then false
      else load_ok inst route_nodes 0
  | _, _ => false

/-- `compute_route_cost(route, trip_time_matrix)`: sum of consecutive-pair
matrix entries. -/
def compute_route_cost (route : List ℕ) (m : ℕ → ℕ → ℕ) : ℕ :=
  match route with
  | a :: b :: rest => m a b + compute_route_cost (b :: rest) m
  | _ => 0

/-- The cost of a route under an instance's matrix. -/
def route_cost (route : List ℕ) (inst : RInstance) : ℕ :=
  compute_route_cost route inst.trip_time_matrix

/-- `evaluate_route(route, instance) -> (feasible, cost)`; the cost is
`+infinity` (here `⊤ : WithTop ℕ`) when the route is infeasible. -/
def evaluate_route (route : List ℕ) (inst : RInstance) : Bool × WithTop ℕ :=
  if is_feasible_route route inst then (true, (route_cost route inst : WithTop ℕ))
  else (false, ⊤)

theorem evaluate_route_fst (route : List ℕ) (inst : RInstance) :
    (evaluate_route route inst).1 = is_feasible_route route inst := by
  unfold evaluate_route
  by_cases h : is_feasible_route route inst <;> simp [h]

theorem evaluate_route_snd_of_feasible (route : List ℕ) (inst : RInstance)
    (h : is_feasible_route route inst = true) :
    (evaluate_route route inst).2 = (route_cost route inst : WithTop ℕ) := by
  simp [evaluate_route, h]

/-- Exchange the entries at positions `i` and `j`
(`lst[i], lst[j] = lst[j], lst[i]` for in-range indices). -/
def swap_positions (l : List ℕ) (i j : ℕ) : List ℕ :=
  (l.set i (l.getD j 0)).set j (l.getD i 0)

/-- `swap_neighborhood(route)`: all routes obtained by exchanging two distinct
interior positions `1 ≤ i < j ≤ n-2`. -/
def swap_neighborhood (route : List ℕ) : List (List ℕ) :=
  let n := route.length
  (List.range' 1 (n - 2)).flatMap (fun i =>
    (List.range' (i + 1) (n - 2 - i)).map (fun j => swap_positions route i j))

/-- `two_opt_neighborhood(route)`: all routes obtained by reversing a
contiguous interior segment `route[i..j]`, `1 ≤ i < j ≤ n-2`
(`route[:i] + reversed(route[i:j+1]) + route[j+1:]`). -/
def two_opt_neighborhood (route : List ℕ) : List (List ℕ) :=
  let n := route.length
  (List.range' 1 (n - 3)).flatMap (fun i =>
    (List.range' (i + 1) (n - 2 - i)).map (fun j =>
      route.take i ++ ((route.drop i).take (j + 1 - i)).reverse ++ route.drop (j + 1)))

example : swap_neighborhood [0, 1, 2, 3, 0] =
    [[0, 2, 1, 3, 0], [0, 3, 2, 1, 0], [0, 1, 3, 2, 0]] := by decide

example : two_opt_neighborhood [0, 1, 2, 3, 0] =
    [[0, 2, 1, 3, 0], [0, 3, 2, 1, 0], [0, 1, 3, 2, 0]] := by decide

theorem sum_map_succ (l : List ℕ) (f : ℕ → ℕ) :
    (l.map (fun i => f i + 1)).sum = (l.map f).sum + l.length := by
  induction l with
  | nil => rfl
  | cons x xs ih =>
    simp only [List.map_cons, List.sum_cons, ih, List.length_cons]
    omega

theorem tri_sum (m : ℕ) :
    ((List.range' 1 m).map (fun i => m - i)).sum = m.choose 2 := by
  induction m with
  | zero => rfl
  | succ m ih =>
    rw [List.range'_concat]
    rw [List.map_append, List.sum_append]
    have h1 : (List.range' 1 m).map (fun i => m + 1 - i) =
        (List.range' 1 m).map (fun i => (m - i) + 1) := by
      apply List.map_congr_left
      intro a ha
      have := List.mem_range'_1.mp ha
      omega
    rw [h1, sum_map_succ, ih, List.length_range']
    have h3 : (m + 1).choose 2 = m.choose 2 + m := by
      rw [Nat.choose_succ_succ]
      rw [Nat.choose_one_right]
      exact Nat.add_comm m (m.choose 2)
    rw [h3]
    simp only [List.map_cons, List.map_nil, List.sum_cons, List.sum_nil]
    omega

theorem choose_sub_formula (n : ℕ) :
    ((List.range' 1 (n - 2)).map (fun i => n - 2 - i)).sum =
      (n - 2).choose 2 :=
  tri_sum (n - 2)

theorem swap_positions_getElem? (l : List ℕ) (i j k : ℕ)
    (hi : i < l.length) (hj : j < l.length) :
    (swap_positions l i j)[k]? =
      if k = j then l[i]? else if k = i then l[j]? else l[k]? := by
  unfold swap_positions
  rw [List.getElem?_set, List.getElem?_set]
  simp only [List.length_set]
  by_cases hkj : j = k
  · subst hkj
    simp [hj, List.getD_eq_getElem?_getD, List.getElem?_eq_getElem hi]
  · by_cases hki : i = k
    · subst hki
      simp [Ne.symm hkj, hkj, hi, List.getD_eq_getElem?_getD,
        List.getElem?_eq_getElem hj]
    · have hjk : ¬ k = j := fun h => hkj h.symm
      have hik : ¬ k = i := fun h => hki h.symm
      simp [hki, hkj, hjk, hik]

theorem route_interior_length (route : List ℕ) :
    (route_interior route).length = route.length - 2 := by
  simp [route_interior]
  omega

theorem route_interior_getElem? (route : List ℕ) (p : ℕ)
    (h1 : 1 ≤ p) (h2 : p < route.length - 1) :
    (route_interior route)[p - 1]? = route[p]? := by
  unfold route_interior
  rw [List.getElem?_dropLast, List.getElem?_drop]
  rw [List.length_drop]
  rw [if_pos (by omega)]
  congr 1
  omega

theorem interior_pos_inj (route : List ℕ)
    (hnd : (route_interior route).Nodup) (p q : ℕ)
    (hp1 : 1 ≤ p) (hp2 : p < route.length - 1)
    (hq1 : 1 ≤ q) (hq2 : q < route.length - 1)
    (heq : route[p]? = route[q]?) : p = q := by
  have h1 := route_interior_getElem? route p hp1 hp2
  have h2 := route_interior_getElem? route q hq1 hq2
  have h3 : (route_interior route)[p - 1]? = (route_interior route)[q - 1]? := by
    rw [h1, h2, heq]
  have hlen : p - 1 < (route_interior route).length := by
    rw [route_interior_length]
    omega
  have := List.getElem?_inj hlen hnd h3
  omega

theorem swap_positions_ne_same_i (route : List ℕ)
    (hnd : (route_interior route).Nodup) (i j₁ j₂ : ℕ)
    (hi1 : 1 ≤ i) (h1 : i < j₁) (h2 : i < j₂)
    (hj1 : j₁ < route.length - 1) (hj2 : j₂ < route.length - 1)
    (hne : j₁ ≠ j₂) :
    swap_positions route i j₁ ≠ swap_positions route i j₂ := by
  intro h
  have hg := congrArg (fun t => t[j₁]?) h
  simp only at hg
  rw [swap_positions_getElem? route i j₁ j₁ (by omega) (by omega)] at hg
  rw [swap_positions_getElem? route i j₂ j₁ (by omega) (by omega)] at hg
  rw [if_pos rfl] at hg
  rw [if_neg hne, if_neg (by omega)] at hg
  have := interior_pos_inj route hnd i j₁ hi1 (by omega) (by omega) hj1 hg
  omega

theorem swap_positions_ne_diff_i (route : List ℕ)
    (hnd : (route_interior route).Nodup) (i₁ j₁ i₂ j₂ : ℕ)
    (hi1 : 1 ≤ i₁) (h11 : i₁ < j₁) (hj1 : j₁ < route.length - 1)
    (hi2 : 1 ≤ i₂) (h22 : i₂ < j₂) (hj2 : j₂ < route.length - 1)
    (hlt : i₁ < i₂) :
    swap_positions route i₁ j₁ ≠ swap_positions route i₂ j₂ := by
  intro h
  have hg := congrArg (fun t => t[i₁]?) h
  simp only at hg
  rw [swap_positions_getElem? route i₁ j₁ i₁ (by omega) (by omega)] at hg
  rw [swap_positions_getElem? route i₂ j₂ i₁ (by omega) (by omega)] at hg
  rw [if_neg (by omega), if_pos rfl] at hg
  rw [if_neg (by omega), if_neg (by omega)] at hg
  have := interior_pos_inj route hnd j₁ i₁ (by omega) hj1 hi1 (by omega) hg
  omega

theorem cons_set_perm : ∀ (xs : List ℕ) (k : ℕ) (x : ℕ), k < xs.length →
    List.Perm (xs.getD k 0 :: xs.set k x) (x :: xs)
  | y :: ys, 0, x, _ => by
    simpa using List.Perm.swap x y ys
  | y :: ys, k + 1, x, h => by
    have hk : k < ys.length := by simpa using h
    simp only [List.getD_cons_succ, List.set_cons_succ]
    exact (List.Perm.swap y (ys.getD k 0) (ys.set k x)).trans
      (((cons_set_perm ys k x hk).cons y).trans (List.Perm.swap x y ys))

theorem swap_positions_perm_lt : ∀ (l : List ℕ) (i j : ℕ), i < j →
    j < l.length → List.Perm (swap_positions l i j) l
  | [], _, _, _, hj => by simp at hj
  | x :: xs, 0, j + 1, _, hj => by
    have hb : j < xs.length := by simpa using hj
    have he : swap_positions (x :: xs) 0 (j + 1) = xs.getD j 0 :: xs.set j x := by
      simp [swap_positions]
    rw [he]
    exact cons_set_perm xs j x hb
  | x :: xs, i + 1, j + 1, hij, hj => by
    have he : swap_positions (x :: xs) (i + 1) (j + 1) =
        x :: swap_positions xs i j := by
      simp [swap_positions]
    rw [he]
    exact (swap_positions_perm_lt xs i j (by omega) (by simpa using hj)).cons x

theorem swap_positions_perm (l : List ℕ) (i j : ℕ) (hij : i ≠ j)
    (hi : i < l.length) (hj : j < l.length) :
    List.Perm (swap_positions l i j) l := by
  rcases Nat.lt_or_ge i j with h | h
  · exact swap_positions_perm_lt l i j h hj
  · have hji : j < i := by omega
    have he : swap_positions l i j = swap_positions l j i := by
      unfold swap_positions
      exact List.set_comm _ _ _ hij
    rw [he]
    exact swap_positions_perm_lt l j i hji hi

theorem swap_positions_head_last (l : List ℕ) (i j : ℕ)
    (hi1 : 1 ≤ i) (hi2 : i < l.length - 1)
    (hj1 : 1 ≤ j) (hj2 : j < l.length - 1) :
    (swap_positions l i j).head? = l.head? ∧
    (swap_positions l i j).getLast? = l.getLast? := by
  have hlen : (swap_positions l i j).length = l.length := by
    simp [swap_positions]
  constructor
  · rw [List.head?_eq_getElem?, List.head?_eq_getElem?]
    rw [swap_positions_getElem? l i j 0 (by omega) (by omega)]
    rw [if_neg (by omega), if_neg (by omega)]
  · rw [List.getLast?_eq_getElem?, List.getLast?_eq_getElem?, hlen]
    rw [swap_positions_getElem? l i j (l.length - 1) (by omega) (by omega)]
    rw [if_neg (by omega), if_neg (by omega)]

theorem two_opt_candidate_perm (l : List ℕ) (i j : ℕ) (hij : i ≤ j) :
    List.Perm
      (l.take i ++ ((l.drop i).take (j + 1 - i)).reverse ++ l.drop (j + 1))
      l := by
  have h1 : List.Perm (l.take i ++ ((l.drop i).take (j + 1 - i)).reverse)
      (l.take i ++ (l.drop i).take (j + 1 - i)) :=
    List.Perm.append_left _ (List.reverse_perm _)
  have h2 : l.take i ++ (l.drop i).take (j + 1 - i) = l.take (j + 1) := by
    rw [← List.take_add]
    congr 1
    omega
  have h3 : List.Perm
      (l.take i ++ ((l.drop i).take (j + 1 - i)).reverse ++ l.drop (j + 1))
      (l.take (j + 1) ++ l.drop (j + 1)) := by
    rw [← h2]
    exact List.Perm.append_right _ h1
  rw [List.take_append_drop] at h3
  exact h3

theorem two_opt_candidate_head_last (l : List ℕ) (i j : ℕ)
    (hi1 : 1 ≤ i) (hj2 : j + 1 < l.length) :
    (l.take i ++ ((l.drop i).take (j + 1 - i)).reverse ++
      l.drop (j + 1)).head? = l.head? ∧
    (l.take i ++ ((l.drop i).take (j + 1 - i)).reverse ++
      l.drop (j + 1)).getLast? = l.getLast? := by
  constructor
  · rw [List.head?_append, List.head?_append]
    rw [List.head?_take]
    rw [if_neg (by omega)]
    cases hh : l.head? with
    | none => simp at hh; subst hh; simp
    | some x => simp
  · rw [List.getLast?_append, List.getLast?_append]
    rw [List.getLast?_drop]
    rw [if_neg (by omega)]
    cases hh : l.getLast? with
    | none =>
      rw [List.getLast?_eq_getElem?] at hh
      have : l.length = 0 := by
        by_contra hc
        have h0 : l.length - 1 < l.length := by omega
        rw [List.getElem?_eq_getElem h0] at hh
        simp at hh
      omega
    | some x => simp

theorem swap_neighborhood_length (route : List ℕ) :
    (swap_neighborhood route).length = (route.length - 2).choose 2 := by
  unfold swap_neighborhood
  rw [List.flatMap_def, List.length_flatten, List.map_map]
  have h : ((List.length ∘ fun i =>
      (List.range' (i + 1) (route.length - 2 - i)).map
        (fun j => swap_positions route i j))) =
      fun i => route.length - 2 - i := by
    funext i
    simp [Function.comp]
  rw [h, tri_sum]

theorem two_opt_neighborhood_length (route : List ℕ) :
    (two_opt_neighborhood route).length = (route.length - 2).choose 2 := by
  unfold two_opt_neighborhood
  rw [List.flatMap_def, List.length_flatten, List.map_map]
  have h : ((List.length ∘ fun i =>
      (List.range' (i + 1) (route.length - 2 - i)).map
        (fun j => route.take i ++ ((route.drop i).take (j + 1 - i)).reverse ++
          route.drop (j + 1)))) =
      fun i => route.length - 2 - i := by
    funext i
    simp [Function.comp]
  rw [h, ← tri_sum (route.length - 2)]
  have h2 : route.length - 2 = (route.length - 3) + 1 ∨ route.length - 2 = 0 := by
    omega
  rcases h2 with h2 | h2
  · rw [h2, List.range'_concat, List.map_append, List.sum_append]
    have h3 : (List.range' 1 (route.length - 3)).map
        (fun i => route.length - 3 + 1 - i) =
        (List.range' 1 (route.length - 3)).map
          (fun i => route.length - 2 - i) := by
      apply List.map_congr_left
      intro a _
      omega
    rw [h3]
    simp only [List.map_cons, List.map_nil, List.sum_cons, List.sum_nil]
    omega
  · rw [h2]
    have h3 : route.length - 3 = 0 := by omega
    rw [h3]

theorem swap_neighborhood_pairwise (route : List ℕ)
    (hnd : (route_interior route).Nodup) :
    (swap_neighborhood route).Pairwise (· ≠ ·) := by
  unfold swap_neighborhood
  rw [List.pairwise_flatMap]
  constructor
  · intro i hi
    have hi' := List.mem_range'_1.mp hi
    rw [List.pairwise_map]
    refine List.Pairwise.imp_of_mem ?_ (List.pairwise_lt_range' _ _)
    intro j₁ j₂ hm1 hm2 hlt
    have hm1' := List.mem_range'_1.mp hm1
    have hm2' := List.mem_range'_1.mp hm2
    exact swap_positions_ne_same_i route hnd i j₁ j₂ (by omega) (by omega)
      (by omega) (by omega) (by omega) (by omega)
  · refine List.Pairwise.imp_of_mem ?_ (List.pairwise_lt_range' _ _)
    intro i₁ i₂ h1 h2 hlt x hx y hy
    have h1' := List.mem_range'_1.mp h1
    have h2' := List.mem_range'_1.mp h2
    obtain ⟨j₁, hj₁, rfl⟩ := List.mem_map.mp hx
    obtain ⟨j₂, hj₂, rfl⟩ := List.mem_map.mp hy
    have hj1' := List.mem_range'_1.mp hj₁
    have hj2' := List.mem_range'_1.mp hj₂
    exact swap_positions_ne_diff_i route hnd i₁ j₁ i₂ j₂ (by omega) (by omega)
      (by omega) (by omega) (by omega) (by omega) hlt

/-- C5: for a route of length `n ≥ 4` with pairwise-distinct interior
entries, the swap neighborhood has exactly `C(n-2, 2)` pairwise-distinct
candidates, the reversal neighborhood has exactly `C(n-2, 2)` candidates, and
every candidate of either generator keeps the multiset of node identifiers
and both depot endpoints of the input route. -/
theorem neighborhood_generators_spec (route : List ℕ)
    (h4 : 4 ≤ route.length) (hnd : (route_interior route).Nodup) :
    (swap_neighborhood route).length = (route.length - 2).choose 2 ∧
    (swap_neighborhood route).Pairwise (· ≠ ·) ∧
    (two_opt_neighborhood route).length = (route.length - 2).choose 2 ∧
    (∀ c ∈ swap_neighborhood route,
      (c : Multiset ℕ) = (route : Multiset ℕ) ∧
      c.head? = route.head? ∧ c.getLast? = route.getLast?) ∧
    (∀ c ∈ two_opt_neighborhood route,
      (c : Multiset ℕ) = (route : Multiset ℕ) ∧
      c.head? = route.head? ∧ c.getLast? = route.getLast?) := by
  refine ⟨swap_neighborhood_length route, swap_neighborhood_pairwise route hnd,
    two_opt_neighborhood_length route, ?_, ?_⟩
  · intro c hc
    unfold swap_neighborhood at hc
    obtain ⟨i, hi, hc⟩ := List.mem_flatMap.mp hc
    obtain ⟨j, hj, rfl⟩ := List.mem_map.mp hc
    have hi' := List.mem_range'_1.mp hi
    have hj' := List.mem_range'_1.mp hj
    have hperm := swap_positions_perm route i j (by omega) (by omega) (by omega)
    have hhl := swap_positions_head_last route i j (by omega) (by omega)
      (by omega) (by omega)
    exact ⟨Multiset.coe_eq_coe.mpr hperm, hhl.1, hhl.2⟩
  · intro c hc
    unfold two_opt_neighborhood at hc
    obtain ⟨i, hi, hc⟩ := List.mem_flatMap.mp hc
    obtain ⟨j, hj, rfl⟩ := List.mem_map.mp hc
    have hi' := List.mem_range'_1.mp hi
    have hj' := List.mem_range'_1.mp hj
    have hperm := two_opt_candidate_perm route i j (by omega)
    have hhl := two_opt_candidate_head_last route i j (by omega) (by omega)
    exact ⟨Multiset.coe_eq_coe.mpr hperm, hhl.1, hhl.2⟩

theorem neighborhood_generators_spec_witness :
    4 ≤ ([0, 1, 2, 3, 0] : List ℕ).length ∧
    (route_interior [0, 1, 2, 3, 0]).Nodup ∧
    ((swap_neighborhood [0, 1, 2, 3, 0]).length =
      (([0, 1, 2, 3, 0] : List ℕ).length - 2).choose 2 ∧
    (swap_neighborhood [0, 1, 2, 3, 0]).Pairwise (· ≠ ·) ∧
    (two_opt_neighborhood [0, 1, 2, 3, 0]).length =
      (([0, 1, 2, 3, 0] : List ℕ).length - 2).choose 2 ∧
    (∀ c ∈ swap_neighborhood [0, 1, 2, 3, 0],
      (c : Multiset ℕ) = (([0, 1, 2, 3, 0] : List ℕ) : Multiset ℕ) ∧
      c.head? = ([0, 1, 2, 3, 0] : List ℕ).head? ∧
      c.getLast? = ([0, 1, 2, 3, 0] : List ℕ).getLast?) ∧
    (∀ c ∈ two_opt_neighborhood [0, 1, 2, 3, 0],
      (c : Multiset ℕ) = (([0, 1, 2, 3, 0] : List ℕ) : Multiset ℕ) ∧
      c.head? = ([0, 1, 2, 3, 0] : List ℕ).head? ∧
      c.getLast? = ([0, 1, 2, 3, 0] : List ℕ).getLast?)) :=
  ⟨by decide, by decide,
   neighborhood_generators_spec [0, 1, 2, 3, 0] (by decide) (by decide)⟩

/-- The ordered neighborhood list of `vnd` and `vns`: swap first, then
segment reversal. -/
def neighborhood_k (k : ℕ) (route : List ℕ) : List (List ℕ) :=
  if k = 0 then swap_neighborhood route else two_opt_neighborhood route

/-- The inner scan of `vnd`: fold over the generated neighbors, skip the
infeasible ones, and keep the lowest-cost strict improvement over the running
best (`best_route`, `best_cost`). -/
def best_feasible_neighbor (inst : RInstance) :
    List (List ℕ) → List ℕ → ℕ → List ℕ × ℕ
  | [], best_route, best_cost => (best_route, best_cost)
  | neighbor :: rest, best_route, best_cost =>
    if is_feasible_route neighbor inst then
      if route_cost neighbor inst < best_cost then
        best_feasible_neighbor inst rest neighbor (route_cost neighbor inst)
      else best_feasible_neighbor inst rest best_route best_cost
    else best_feasible_neighbor inst rest best_route best_cost

/-- The `while k < len(neighborhoods)` loop of `vnd`: adopt the best improving
feasible neighbor and reset `k` to 0, or advance `k` when no improvement
exists in neighborhood `k`. -/
def vnd_loop (inst : RInstance) (current_route : List ℕ) (current_cost : ℕ)
    (k : ℕ) : List ℕ × ℕ :=
  if k < 2 then
    let bb := best_feasible_neighbor inst (neighborhood_k k current_route)
      current_route current_cost
    if h2 : bb.2 < current_cost then
      vnd_loop inst bb.1 bb.2 0
    else
      vnd_loop inst current_route current_cost (k + 1)
  else (current_route, current_cost)
termination_by (current_cost, 2 - k)
decreasing_by
  · exact Prod.Lex.left _ _ h2
  · exact Prod.Lex.right _ (by omega)

/-- `vnd(initial_route, instance)`: raises (`none`) on an infeasible initial
route, otherwise runs the descent loop from neighborhood index 0. -/
def vnd (initial_route : List ℕ) (inst : RInstance) : Option (List ℕ × ℕ) :=
  if is_feasible_route initial_route inst then
    some (vnd_loop inst initial_route (route_cost initial_route inst) 0)
  else none

theorem best_feasible_neighbor_inv (inst : RInstance) (l : List (List ℕ))
    (br : List ℕ) (bc : ℕ) (hf : is_feasible_route br inst = true)
    (hc : bc = route_cost br inst) :
    is_feasible_route (best_feasible_neighbor inst l br bc).1 inst = true ∧
    (best_feasible_neighbor inst l br bc).2 =
      route_cost (best_feasible_neighbor inst l br bc).1 inst ∧
    (best_feasible_neighbor inst l br bc).2 ≤ bc := by
  induction l generalizing br bc with
  | nil => exact ⟨hf, hc, le_refl _⟩
  | cons nb rest ih =>
    by_cases h1 : is_feasible_route nb inst
    · by_cases h2 : route_cost nb inst < bc
      · have h3 := ih nb (route_cost nb inst) h1 rfl
        simp only [best_feasible_neighbor, h1, h2, if_true]
        exact ⟨h3.1, h3.2.1, le_trans h3.2.2 (le_of_lt h2)⟩
      · have h3 := ih br bc hf hc
        simp only [best_feasible_neighbor, h1, h2, if_true, if_false]
        exact h3
    · have h3 := ih br bc hf hc
      simp only [best_feasible_neighbor, h1, if_false]
      exact h3

theorem vnd_loop_inv (inst : RInstance) (cr : List ℕ) (cc k : ℕ)
    (hf : is_feasible_route cr inst = true) (hc : cc = route_cost cr inst) :
    is_feasible_route (vnd_loop inst cr cc k).1 inst = true ∧
    (vnd_loop inst cr cc k).2 = route_cost (vnd_loop inst cr cc k).1 inst ∧
    (vnd_loop inst cr cc k).2 ≤ cc := by
  induction cr, cc, k using vnd_loop.induct inst with
  | case1 cr cc k hk bb h2 ih =>
    have hb := best_feasible_neighbor_inv inst (neighborhood_k k cr) cr cc hf hc
    have h2' : (best_feasible_neighbor inst (neighborhood_k k cr) cr cc).2 < cc := h2
    rw [vnd_loop]
    simp only [hk, if_true]
    rw [dif_pos h2']
    have h4 := ih hb.1 hb.2.1
    exact ⟨h4.1, h4.2.1, le_trans h4.2.2 (le_of_lt h2')⟩
  | case2 cr cc k hk bb h2 ih =>
    have h2' : ¬ (best_feasible_neighbor inst (neighborhood_k k cr) cr cc).2 < cc := h2
    rw [vnd_loop]
    simp only [hk, if_true]
    rw [dif_neg h2']
    exact ih hf hc
  | case3 cr cc k hk =>
    rw [vnd_loop]
    simp only [hk, if_false]
    exact ⟨hf, hc, le_refl _⟩

/-- A route/cost pair with no strictly improving feasible neighbor in either
neighborhood of the fixed order. -/
def is_local_opt (inst : RInstance) (r : List ℕ) (c : ℕ) : Prop :=
  ¬ (best_feasible_neighbor inst (swap_neighborhood r) r c).2 < c ∧
  ¬ (best_feasible_neighbor inst (two_opt_neighborhood r) r c).2 < c

theorem vnd_loop_localopt (inst : RInstance) (cr : List ℕ) (cc k : ℕ)
    (hprev : ∀ k' : ℕ, k' < k →
      ¬ (best_feasible_neighbor inst (neighborhood_k k' cr) cr cc).2 < cc) :
    is_local_opt inst (vnd_loop inst cr cc k).1 (vnd_loop inst cr cc k).2 := by
  induction cr, cc, k using vnd_loop.induct inst with
  | case1 cr cc k hk bb h2 ih =>
    have h2' : (best_feasible_neighbor inst (neighborhood_k k cr) cr cc).2 < cc := h2
    rw [vnd_loop]
    simp only [hk, if_true]
    rw [dif_pos h2']
    exact ih (fun k' hk' => absurd hk' (Nat.not_lt_zero k'))
  | case2 cr cc k hk bb h2 ih =>
    have h2' : ¬ (best_feasible_neighbor inst (neighborhood_k k cr) cr cc).2 < cc := h2
    rw [vnd_loop]
    simp only [hk, if_true]
    rw [dif_neg h2']
    refine ih (fun k' hk' => ?_)
    rcases Nat.lt_or_ge k' k with h | h
    · exact hprev k' h
    · have : k' = k := Nat.le_antisymm (Nat.lt_succ_iff.mp hk') h
      rw [this]
      exact h2'
  | case3 cr cc k hk =>
    rw [vnd_loop]
    simp only [hk, if_false]
    have h0 := hprev 0 (by omega)
    have h1 := hprev 1 (by omega)
    simp only [neighborhood_k, if_true, if_false] at h0 h1
    exact ⟨by simpa using h0, by simpa using h1⟩

theorem vnd_loop_of_localopt (inst : RInstance) (r : List ℕ) (c : ℕ)
    (h : is_local_opt inst r c) : vnd_loop inst r c 0 = (r, c) := by
  rw [vnd_loop]
  simp only [Nat.zero_lt_succ, if_true]
  rw [dif_neg (by simpa [neighborhood_k] using h.1)]
  rw [vnd_loop]
  simp only [Nat.one_lt_two, if_true]
  rw [dif_neg (by simpa [neighborhood_k] using h.2)]
  rw [vnd_loop]
  simp

/-- C1: VND on a feasible initial route returns a feasible route whose
(oracle-validated) cost is at most the cost of the initial route. -/
theorem vnd_feasible_and_nonincreasing (initial_route : List ℕ)
    (inst : RInstance) (h : is_feasible_route initial_route inst = true) :
    ∃ p : List ℕ × ℕ, vnd initial_route inst = some p ∧
      is_feasible_route p.1 inst = true ∧
      p.2 = route_cost p.1 inst ∧
      route_cost p.1 inst ≤ route_cost initial_route inst := by
  refine ⟨vnd_loop inst initial_route (route_cost initial_route inst) 0,
    by simp [vnd, h], ?_⟩
  have hi := vnd_loop_inv inst initial_route (route_cost initial_route inst) 0 h rfl
  exact ⟨hi.1, hi.2.1, by rw [← hi.2.1]; exact hi.2.2⟩

/-- A small concrete instance used by the witnesses: four nodes, depot 0,
capacity 10, a deterministic trip-time matrix. -/
def testInstance : RInstance where
  nodes := [⟨0, 0, 0⟩, ⟨1, 1, 0⟩, ⟨2, 0, 1⟩, ⟨3, 1, 1⟩]
  trip_time_matrix := fun i j => (3 * i + 2 * j) % 5
  max_capacity := 10

theorem vnd_feasible_and_nonincreasing_witness :
    is_feasible_route [0, 1, 2, 3, 0] testInstance = true ∧
    ∃ p : List ℕ × ℕ, vnd [0, 1, 2, 3, 0] testInstance = some p ∧
      is_feasible_route p.1 testInstance = true ∧
      p.2 = route_cost p.1 testInstance ∧
      route_cost p.1 testInstance ≤ route_cost [0, 1, 2, 3, 0] testInstance :=
  ⟨by decide,
   vnd_feasible_and_nonincreasing [0, 1, 2, 3, 0] testInstance (by decide)⟩

/-- C7: the output of VND is a fixed point of VND — running `vnd` on the
returned route returns the same route and cost unchanged. -/
theorem vnd_idempotent (initial_route : List ℕ) (inst : RInstance)
    (h : is_feasible_route initial_route inst = true) (p : List ℕ × ℕ)
    (hp : vnd initial_route inst = some p) : vnd p.1 inst = some p := by
  have hv : vnd initial_route inst =
      some (vnd_loop inst initial_route (route_cost initial_route inst) 0) := by
    simp [vnd, h]
  rw [hv] at hp
  have hp' := (Option.some_injective _ hp).symm
  have hi := vnd_loop_inv inst initial_route (route_cost initial_route inst) 0 h rfl
  have hl := vnd_loop_localopt inst initial_route (route_cost initial_route inst) 0
    (fun k' hk' => absurd hk' (Nat.not_lt_zero k'))
  rw [← hp'] at hi hl
  have : vnd p.1 inst = some (vnd_loop inst p.1 (route_cost p.1 inst) 0) := by
    simp [vnd, hi.1]
  rw [this, ← hi.2.1, vnd_loop_of_localopt inst p.1 p.2 hl]

theorem vnd_idempotent_witness :
    is_feasible_route [0, 1, 2, 3, 0] testInstance = true ∧
    ∃ p : List ℕ × ℕ, vnd [0, 1, 2, 3, 0] testInstance = some p ∧
      vnd p.1 testInstance = some p := by
  have h : is_feasible_route [0, 1, 2, 3, 0] testInstance = true := by decide
  have hl : is_local_opt testInstance [0, 1, 2, 3, 0] 10 := by
    constructor <;> decide
  have hc : route_cost [0, 1, 2, 3, 0] testInstance = 10 := by decide
  have hp : vnd [0, 1, 2, 3, 0] testInstance = some ([0, 1, 2, 3, 0], 10) := by
    rw [vnd, if_pos h, hc, vnd_loop_of_localopt _ _ _ hl]
  exact ⟨h, ([0, 1, 2, 3, 0], 10), hp,
    vnd_idempotent [0, 1, 2, 3, 0] testInstance h _ hp⟩

/-- The `for it in range(max_iterations)` loop of `ils`, with the random
`perturb_route` drawn from an explicit oracle `perturb` (iteration index and
current route to perturbed route).  An infeasible perturbation is rejected
without descent.  Inside the feasibility guard the source's
`vnd(perturbed_route, instance)` equals `vnd_loop` from the perturbed route,
which is called directly here. -/
def ils_loop (inst : RInstance) (perturb : ℕ → List ℕ → List ℕ) :
    ℕ → ℕ → List ℕ → ℕ → List ℕ → ℕ → List ℕ × ℕ
  | 0, _, _, _, br, bc => (br, bc)
  | rem + 1, it, cr, cc, br, bc =>
    let pr := perturb it cr
    if is_feasible_route pr inst then
      let res := vnd_loop inst pr (route_cost pr inst) 0
      if res.2 < bc then ils_loop inst perturb rem (it + 1) res.1 res.2 res.1 res.2
      else ils_loop inst perturb rem (it + 1) cr cc br bc
    else ils_loop inst perturb rem (it + 1) cr cc br bc

/-- `ils(initial_route, instance, max_iterations)`: VND to a local optimum,
then the perturb-and-descend loop with better-only acceptance.  The initial
VND propagates the infeasible-initial-route failure (`none`). -/
def ils (initial_route : List ℕ) (inst : RInstance) (max_iterations : ℕ)
    (perturb : ℕ → List ℕ → List ℕ) : Option (List ℕ × ℕ) :=
  match vnd initial_route inst with
  | none => none
  | some res => some (ils_loop inst perturb max_iterations 0 res.1 res.2 res.1 res.2)

/-- C8: with `max_iterations = 0` (and any perturbation oracle), ILS on a
feasible initial route returns exactly the VND result of that route. -/
theorem ils_zero_iterations_eq_vnd (initial_route : List ℕ) (inst : RInstance)
    (perturb : ℕ → List ℕ → List ℕ)
    (h : is_feasible_route initial_route inst = true) :
    ils initial_route inst 0 perturb = vnd initial_route inst := by
  simp [ils, vnd, h, ils_loop]

theorem ils_zero_iterations_eq_vnd_witness :
    is_feasible_route [0, 1, 2, 3, 0] testInstance = true ∧
    ils [0, 1, 2, 3, 0] testInstance 0 (fun _ r => r) =
      vnd [0, 1, 2, 3, 0] testInstance :=
  ⟨by decide,
   ils_zero_iterations_eq_vnd [0, 1, 2, 3, 0] testInstance (fun _ r => r)
     (by decide)⟩

/-- The shaking phase of `vns`: up to `tries` attempts to draw one random
feasible neighbor.  The randomness of `random.choice` is an oracle `pick`
indexed by a running call counter `ctr`; an empty neighbor list breaks out. -/
def shake (inst : RInstance) (pick : ℕ → ℕ) (nbhd : List (List ℕ)) :
    ℕ → ℕ → Option (List ℕ) × ℕ
  | 0, ctr => (none, ctr)
  | tries + 1, ctr =>
    if nbhd.isEmpty then (none, ctr)
    else
      let candidate := nbhd.getD (pick ctr % nbhd.length) []
      if is_feasible_route candidate inst then (some candidate, ctr + 1)
      else shake inst pick nbhd tries (ctr + 1)

/-- The `while k < len(neighborhoods)` loop of one `vns` iteration: shake in
neighborhood `k`, intensify with VND (the shaken route is feasible, so the
source's `vnd` call equals `vnd_loop`), accept on strict improvement of the
current cost (resetting `k`), otherwise advance `k`.  Returns the updated
current/best state and random-call counter. -/
def vns_inner (inst : RInstance) (pick : ℕ → ℕ) (max_shake_tries : ℕ)
    (cr : List ℕ) (cc : ℕ) (br : List ℕ) (bc : ℕ) (k : ℕ) (ctr : ℕ) :
    List ℕ × ℕ × List ℕ × ℕ × ℕ :=
  if k < 2 then
    let s := shake inst pick (neighborhood_k k cr) max_shake_tries ctr
    match s.1 with
    | none => vns_inner inst pick max_shake_tries cr cc br bc (k + 1) s.2
    | some sr =>
      let res := vnd_loop inst sr (route_cost sr inst) 0
      if h2 : res.2 < cc then
        let bp := if res.2 < bc then (res.1, res.2) else (br, bc)
        vns_inner inst pick max_shake_tries res.1 res.2 bp.1 bp.2 0 s.2
      else vns_inner inst pick max_shake_tries cr cc br bc (k + 1) s.2
  else (cr, cc, br, bc, ctr)
termination_by (cc, 2 - k)
decreasing_by
  all_goals first
    | exact Prod.Lex.left _ _ h2
    | exact Prod.Lex.right _ (by omega)

/-- The `for it in range(max_iterations)` loop of `vns`. -/
def vns_outer (inst : RInstance) (pick : ℕ → ℕ) (max_shake_tries : ℕ) :
    ℕ → List ℕ → ℕ → List ℕ → ℕ → ℕ → List ℕ × ℕ
  | 0, _, _, br, bc, _ => (br, bc)
  | rem + 1, cr, cc, br, bc, ctr =>
    let s := vns_inner inst pick max_shake_tries cr cc br bc 0 ctr
    vns_outer inst pick max_shake_tries rem s.1 s.2.1 s.2.2.1 s.2.2.2.1 s.2.2.2.2

/-- `vns(initial_route, instance, max_iterations, seed, max_shake_tries)`:
raises (`none`) on an infeasible initial route, otherwise runs the shaking
iterations.  The seeded random source is the oracle `pick`. -/
def vns (initial_route : List ℕ) (inst : RInstance) (max_iterations : ℕ)
    (pick : ℕ → ℕ) (max_shake_tries : ℕ) : Option (List ℕ × ℕ) :=
  if is_feasible_route initial_route inst then
    some (vns_outer inst pick max_shake_tries max_iterations initial_route
      (route_cost initial_route inst) initial_route
      (route_cost initial_route inst) 0)
  else none

/-- `lst.index(v)` from Python: the first position of `v`, or an error
(`none`) when `v` is absent. -/
def list_index : List ℕ → ℕ → Option ℕ
  | [], _ => none
  | x :: xs, v => if x = v then some 0 else (list_index xs v).map (· + 1)

theorem list_index_eq_none_iff (l : List ℕ) (v : ℕ) :
    list_index l v = none ↔ v ∉ l := by
  induction l with
  | nil => simp [list_index]
  | cons x xs ih =>
    by_cases hx : x = v
    · subst hx
      simp [list_index]
    · rw [list_index, if_neg hx, Option.map_eq_none', ih, List.mem_cons]
      constructor
      · intro h hm
        rcases hm with h1 | h2
        · exact hx h1.symm
        · exact h h2
      · intro h hm
        exact h (Or.inr hm)

theorem list_index_some (l : List ℕ) (v : ℕ) (j : ℕ)
    (h : list_index l v = some j) : j < l.length ∧ l[j]? = some v := by
  induction l generalizing j with
  | nil => simp [list_index] at h
  | cons x xs ih =>
    by_cases hx : x = v
    · subst hx
      simp [list_index] at h
      subst h
      simp
    · simp only [list_index, if_neg hx] at h
      rcases Option.map_eq_some'.mp h with ⟨j', hj', rfl⟩
      have := ih j' hj'
      constructor
      · simpa using Nat.succ_lt_succ this.1
      · simpa using this.2

/-- The position walk of `path_relinking`: for each remaining interior
position `i`, when the working route disagrees with `target` perform the
directed swap, evaluate, keep the best feasible route along the path, and on
the first feasible cost strictly below the origin cost hand the working route
to the intensifier and return its result when that result re-evaluates
feasible, the best-along-path pair otherwise.  An infeasible swapped route is
kept (not reverted) and the walk continues from it.  A missing `target` value
(`ValueError` from `list.index`) or an out-of-range position is `none`. -/
def pr_loop (inst : RInstance) (target : List ℕ)
    (intens : List ℕ → RInstance → Option (List ℕ × ℕ)) (origin_cost : ℕ) :
    List ℕ → List ℕ → List ℕ → ℕ → Option (List ℕ × ℕ)
  | [], _, br, bc => some (br, bc)
  | i :: rest, cur, br, bc =>
    match cur[i]?, target[i]? with
    | some cv, some tv =>
      if cv = tv then pr_loop inst target intens origin_cost rest cur br bc
      else
        match list_index cur tv with
        | none => none
        | some j =>
          let cur2 := swap_positions cur i j
          if is_feasible_route cur2 inst then
            let cost := route_cost cur2 inst
            let bp := if cost < bc then (cur2, cost) else (br, bc)
            if cost < origin_cost then
              match intens cur2 inst with
              | none => none
              | some ip =>
                if is_feasible_route ip.1 inst then some ip else some bp
            else pr_loop inst target intens origin_cost rest cur2 bp.1 bp.2
          else pr_loop inst target intens origin_cost rest cur2 br bc
    | _, _ => none

/-- The interior positions `range(1, len(origin) - 1)` walked by
`path_relinking`. -/
def interior_positions (origin : List ℕ) : List ℕ :=
  List.range' 1 (origin.length - 2)

/-- `path_relinking(origin, target, instance, intensification_method)`:
raises (`none`) on an infeasible origin, otherwise walks the interior
positions from a copy of `origin`.  The intensifier is `Option`-valued so
that a raising callback propagates. -/
def path_relinking (origin target : List ℕ) (inst : RInstance)
    (intens : List ℕ → RInstance → Option (List ℕ × ℕ)) :
    Option (List ℕ × ℕ) :=
  if is_feasible_route origin inst then
    pr_loop inst target intens (route_cost origin inst)
      (interior_positions origin) origin origin (route_cost origin inst)
  else none

def pr_walk_step (target : List ℕ) (cur : List ℕ) (i : ℕ) : List ℕ :=
  if cur.getD i 0 = target.getD i 0 then cur
  else
    match list_index cur (target.getD i 0) with
    | none => cur
    | some j => swap_positions cur i j

def pr_walk (target origin positions : List ℕ) (t : ℕ) : List ℕ :=
  (positions.take t).foldl (pr_walk_step target) origin

def pr_swapped (target origin positions : List ℕ) (t : ℕ) : Bool :=
  decide ((pr_walk target origin positions t).getD (positions.getD t 0) 0 ≠
    target.getD (positions.getD t 0) 0)

def pr_hit (inst : RInstance) (target origin positions : List ℕ) (oc : ℕ)
    (t : ℕ) : Bool :=
  pr_swapped target origin positions t &&
  is_feasible_route (pr_walk target origin positions (t + 1)) inst &&
  decide (route_cost (pr_walk target origin positions (t + 1)) inst < oc)

def pr_best (inst : RInstance) (target origin positions : List ℕ) :
    ℕ → List ℕ × ℕ
  | 0 => (origin, route_cost origin inst)
  | t + 1 =>
    let prev := pr_best inst target origin positions t
    let c := pr_walk target origin positions (t + 1)
    if pr_swapped target origin positions t && is_feasible_route c inst &&
        decide (route_cost c inst < prev.2) then (c, route_cost c inst)
    else prev

theorem pr_walk_zero (target origin positions : List ℕ) :
    pr_walk target origin positions 0 = origin := rfl

theorem pr_walk_succ (target origin positions : List ℕ) (t : ℕ)
    (ht : t < positions.length) :
    pr_walk target origin positions (t + 1) =
      pr_walk_step target (pr_walk target origin positions t)
        (positions.getD t 0) := by
  unfold pr_walk
  rw [List.take_succ]
  rw [List.getElem?_eq_getElem ht]
  simp only [Option.toList_some, List.foldl_append, List.foldl_cons,
    List.foldl_nil]
  congr 1
  rw [List.getD_eq_getElem?_getD, List.getElem?_eq_getElem ht]
  rfl

theorem pr_walk_step_inv (target cur : List ℕ) (i : ℕ) (hi : i < cur.length) :
    (pr_walk_step target cur i).length = cur.length ∧
    List.Perm (pr_walk_step target cur i) cur := by
  unfold pr_walk_step
  by_cases he : cur.getD i 0 = target.getD i 0
  · rw [if_pos he]
    exact ⟨rfl, List.Perm.refl _⟩
  · rw [if_neg he]
    cases hidx : list_index cur (target.getD i 0) with
    | none => exact ⟨rfl, List.Perm.refl _⟩
    | some j =>
      have hj := list_index_some cur (target.getD i 0) j hidx
      have hjv : cur.getD j 0 = target.getD i 0 := by
        rw [List.getD_eq_getElem?_getD, hj.2]
        rfl
      have hij : i ≠ j := by
        intro h
        subst h
        exact he hjv
      constructor
      · simp [swap_positions]
      · exact swap_positions_perm cur i j hij hi hj.1

theorem pr_walk_inv (target origin positions : List ℕ)
    (hpos : ∀ i ∈ positions, i < origin.length) (t : ℕ) :
    (pr_walk target origin positions t).length = origin.length ∧
    List.Perm (pr_walk target origin positions t) origin := by
  induction t with
  | zero => exact ⟨rfl, List.Perm.refl _⟩
  | succ t ih =>
    by_cases ht : t < positions.length
    · rw [pr_walk_succ target origin positions t ht]
      have hmem : positions.getD t 0 ∈ positions := by
        rw [List.getD_eq_getElem?_getD, List.getElem?_eq_getElem ht]
        exact List.getElem_mem ht
      have hi : positions.getD t 0 < (pr_walk target origin positions t).length := by
        rw [ih.1]
        exact hpos _ hmem
      have hs := pr_walk_step_inv target (pr_walk target origin positions t)
        (positions.getD t 0) hi
      exact ⟨hs.1.trans ih.1, hs.2.trans ih.2⟩
    · have : pr_walk target origin positions (t + 1) =
          pr_walk target origin positions t := by
        unfold pr_walk
        rw [List.take_of_length_le (by omega), List.take_of_length_le (by omega)]
      rw [this]
      exact ih

theorem pr_loop_cons_skip (inst : RInstance) (target : List ℕ)
    (intens : List ℕ → RInstance → Option (List ℕ × ℕ)) (oc : ℕ)
    (i : ℕ) (rest cur br : List ℕ) (bc : ℕ) (cv tv : ℕ)
    (hcv : cur[i]? = some cv) (htv : target[i]? = some tv) (heq : cv = tv) :
    pr_loop inst target intens oc (i :: rest) cur br bc =
      pr_loop inst target intens oc rest cur br bc := by
  simp only [pr_loop, hcv, htv, if_pos heq]

theorem pr_loop_cons_swap (inst : RInstance) (target : List ℕ)
    (intens : List ℕ → RInstance → Option (List ℕ × ℕ)) (oc : ℕ)
    (i : ℕ) (rest cur br : List ℕ) (bc : ℕ) (cv tv j : ℕ)
    (hcv : cur[i]? = some cv) (htv : target[i]? = some tv) (hne : cv ≠ tv)
    (hidx : list_index cur tv = some j) :
    pr_loop inst target intens oc (i :: rest) cur br bc =
      (if is_feasible_route (swap_positions cur i j) inst then
        if route_cost (swap_positions cur i j) inst < oc then
          match intens (swap_positions cur i j) inst with
          | none => none
          | some ip =>
            if is_feasible_route ip.1 inst then some ip
            else some (if route_cost (swap_positions cur i j) inst < bc
              then (swap_positions cur i j,
                    route_cost (swap_positions cur i j) inst)
              else (br, bc))
        else pr_loop inst target intens oc rest (swap_positions cur i j)
          (if route_cost (swap_positions cur i j) inst < bc
            then (swap_positions cur i j,
                  route_cost (swap_positions cur i j) inst)
            else (br, bc)).1
          (if route_cost (swap_positions cur i j) inst < bc
            then (swap_positions cur i j,
                  route_cost (swap_positions cur i j) inst)
            else (br, bc)).2
      else pr_loop inst target intens oc rest (swap_positions cur i j) br bc) := by
  simp only [pr_loop, hcv, htv, if_neg hne, hidx]

def pr_spec_tail (inst : RInstance) (target origin positions : List ℕ)
    (intens : List ℕ → RInstance → Option (List ℕ × ℕ)) :
    Option ℕ → Option (List ℕ × ℕ)
  | some u =>
    match intens (pr_walk target origin positions (u + 1)) inst with
    | none => none
    | some ip =>
      if is_feasible_route ip.1 inst then some ip
      else some (pr_best inst target origin positions (u + 1))
  | none => some (pr_best inst target origin positions positions.length)

theorem pr_loop_eq_spec_aux (inst : RInstance) (target origin : List ℕ)
    (intens : List ℕ → RInstance → Option (List ℕ × ℕ)) (oc : ℕ)
    (hlen : origin.length ≤ target.length)
    (hmem : ∀ i ∈ interior_positions origin, target.getD i 0 ∈ origin) :
    ∀ d t, t + d = (interior_positions origin).length →
    pr_loop inst target intens oc ((interior_positions origin).drop t)
      (pr_walk target origin (interior_positions origin) t)
      (pr_best inst target origin (interior_positions origin) t).1
      (pr_best inst target origin (interior_positions origin) t).2 =
    pr_spec_tail inst target origin (interior_positions origin) intens
      ((List.range' t d).find?
        (pr_hit inst target origin (interior_positions origin) oc)) := by
  intro d
  induction d with
  | zero =>
    intro t htd
    have ht' : t = (interior_positions origin).length := by omega
    subst ht'
    rw [List.drop_length]
    simp only [List.range'_zero, List.find?_nil, pr_spec_tail, pr_loop]
  | succ d ih =>
    intro t htd
    have ht : t < (interior_positions origin).length := by omega
    have hpos : ∀ p ∈ interior_positions origin, p < origin.length := by
      intro p hp
      have := List.mem_range'_1.mp hp
      unfold interior_positions at this
      omega
    have hWlen := (pr_walk_inv target origin _ hpos t).1
    have hWperm := (pr_walk_inv target origin _ hpos t).2
    set i := (interior_positions origin).getD t 0 with hidef
    have hiP : i ∈ interior_positions origin := by
      rw [hidef, List.getD_eq_getElem?_getD, List.getElem?_eq_getElem ht]
      exact List.getElem_mem ht
    have hi_lt : i < origin.length := hpos _ hiP
    have hi_ltW : i <
        (pr_walk target origin (interior_positions origin) t).length := by
      rw [hWlen]
      exact hi_lt
    have hi_ltT : i < target.length := lt_of_lt_of_le hi_lt hlen
    have hdrop : (interior_positions origin).drop t =
        i :: (interior_positions origin).drop (t + 1) := by
      rw [hidef, List.getD_eq_getElem?_getD, List.getElem?_eq_getElem ht]
      exact (List.getElem_cons_drop _ _ ht).symm
    have hrange : List.range' t (d + 1) = t :: List.range' (t + 1) d :=
      List.range'_succ t d 1
    obtain ⟨cv, hcv⟩ :
        ∃ cv, (pr_walk target origin (interior_positions origin) t)[i]? =
          some cv := ⟨_, List.getElem?_eq_getElem hi_ltW⟩
    obtain ⟨tv, htv⟩ : ∃ tv, target[i]? = some tv :=
      ⟨_, List.getElem?_eq_getElem hi_ltT⟩
    have hcvD : (pr_walk target origin (interior_positions origin) t).getD i 0 =
        cv := by
      rw [List.getD_eq_getElem?_getD, hcv]
      rfl
    have htvD : target.getD i 0 = tv := by
      rw [List.getD_eq_getElem?_getD, htv]
      rfl
    rw [hdrop, hrange]
    by_cases heq : cv = tv
    · rw [pr_loop_cons_skip inst target intens oc i _ _ _ _ cv tv hcv htv heq]
      have hW1 : pr_walk target origin (interior_positions origin) (t + 1) =
          pr_walk target origin (interior_positions origin) t := by
        rw [pr_walk_succ _ _ _ t ht]
        unfold pr_walk_step
        rw [← hidef, hcvD, htvD, if_pos heq]
      have hsw : pr_swapped target origin (interior_positions origin) t =
          false := by
        unfold pr_swapped
        rw [← hidef, hcvD, htvD]
        simp [heq]
      have hhit : pr_hit inst target origin (interior_positions origin) oc t =
          false := by
        unfold pr_hit
        rw [hsw]
        rfl
      have hB1 : pr_best inst target origin (interior_positions origin)
          (t + 1) = pr_best inst target origin (interior_positions origin) t := by
        simp only [pr_best]
        rw [hsw]
        simp
      rw [List.find?_cons_of_neg _ (by simp [hhit])]
      have hih := ih (t + 1) (by omega)
      rw [hW1, hB1] at hih
      exact hih
    · have htv_mem : tv ∈ pr_walk target origin (interior_positions origin) t := by
        rw [hWperm.mem_iff]
        have hm := hmem i hiP
        rw [htvD] at hm
        exact hm
      cases hidx : list_index (pr_walk target origin (interior_positions origin) t) tv with
      | none => exact absurd htv_mem ((list_index_eq_none_iff _ _).mp hidx)
      | some j =>
        have hj := list_index_some _ _ _ hidx
        have hW1 : pr_walk target origin (interior_positions origin) (t + 1) =
            swap_positions (pr_walk target origin (interior_positions origin) t)
              i j := by
          rw [pr_walk_succ _ _ _ t ht]
          unfold pr_walk_step
          rw [← hidef, hcvD, htvD, if_neg heq, hidx]
        have hsw : pr_swapped target origin (interior_positions origin) t =
            true := by
          unfold pr_swapped
          rw [← hidef, hcvD, htvD]
          simp [heq]
        rw [pr_loop_cons_swap inst target intens oc i _ _ _ _ cv tv j hcv htv
          heq hidx]
        by_cases hfeas : is_feasible_route
            (swap_positions (pr_walk target origin (interior_positions origin) t)
              i j) inst = true
        · have hB1 : pr_best inst target origin (interior_positions origin)
              (t + 1) =
              (if route_cost (swap_positions
                  (pr_walk target origin (interior_positions origin) t) i j)
                    inst <
                  (pr_best inst target origin (interior_positions origin) t).2
                then (swap_positions
                    (pr_walk target origin (interior_positions origin) t) i j,
                  route_cost (swap_positions
                    (pr_walk target origin (interior_positions origin) t) i j)
                    inst)
                else pr_best inst target origin (interior_positions origin) t) := by
            simp only [pr_best]
            rw [hsw, hW1, hfeas]
            simp
          by_cases hoc : route_cost (swap_positions
              (pr_walk target origin (interior_positions origin) t) i j) inst <
              oc
          · have hhit : pr_hit inst target origin (interior_positions origin)
                oc t = true := by
              unfold pr_hit
              rw [hsw, hW1, hfeas]
              simp [hoc]
            rw [List.find?_cons_of_pos _ hhit]
            rw [if_pos hfeas, if_pos hoc]
            simp only [pr_spec_tail]
            rw [hW1, hB1]
          · have hhit : pr_hit inst target origin (interior_positions origin)
                oc t = false := by
              unfold pr_hit
              rw [hsw, hW1, hfeas]
              simp [hoc]
            rw [List.find?_cons_of_neg _ (by simp [hhit])]
            rw [if_pos hfeas, if_neg hoc]
            have hih := ih (t + 1) (by omega)
            rw [hW1, hB1] at hih
            exact hih
        · have hfeas' : is_feasible_route
              (swap_positions (pr_walk target origin (interior_positions origin) t)
                i j) inst = false := by
            simpa using hfeas
          have hB1 : pr_best inst target origin (interior_positions origin)
              (t + 1) = pr_best inst target origin (interior_positions origin)
                t := by
            simp only [pr_best]
            rw [hsw, hW1, hfeas']
            simp
          have hhit : pr_hit inst target origin (interior_positions origin)
              oc t = false := by
            unfold pr_hit
            rw [hsw, hW1, hfeas']
            rfl
          rw [List.find?_cons_of_neg _ (by simp [hhit])]
          rw [if_neg hfeas]
          have hih := ih (t + 1) (by omega)
          rw [hW1, hB1] at hih
          exact hih

/-- The first position index (0-based along the walked position list) whose
directed swap yields a feasible working route costing strictly less than the
origin — the spec's opportunistic-stop trigger. -/
def pr_first_hit (inst : RInstance) (target origin positions : List ℕ)
    (oc : ℕ) : Option ℕ :=
  (List.range positions.length).find?
    (pr_hit inst target origin positions oc)

/-- The path-relinking behavior as the specification describes it, built from
the walk sequence `pr_walk` (which keeps every directed swap, feasible or
not — the non-revert reading), the best-along-path accumulator `pr_best`, and
the first opportunistic hit `pr_first_hit`: on a hit, the intensifier runs on
the working route and its result is returned when it re-evaluates feasible,
the best-along-path pair otherwise; with no hit the best-along-path pair
(possibly the origin itself) is returned. -/
def path_relinking_spec (origin target : List ℕ) (inst : RInstance)
    (intens : List ℕ → RInstance → Option (List ℕ × ℕ)) :
    Option (List ℕ × ℕ) :=
  if is_feasible_route origin inst then
    pr_spec_tail inst target origin (interior_positions origin) intens
      (pr_first_hit inst target origin (interior_positions origin)
        (route_cost origin inst))
  else none

/-- C2: `path_relinking` follows the spec's description exactly — the walk
never reverts an infeasible directed swap (it continues from the swapped
route), the first feasible intermediate beating the origin cost hands the
working route to the intensifier whose result is returned when it
re-evaluates feasible (else the best-along-path pair), and without such a hit
the best-along-path pair is returned.  The hypotheses rule out the
`ValueError` of `list.index` (every walked target value occurs in the
origin's multiset) and an out-of-range target access. -/
theorem path_relinking_eq_spec (origin target : List ℕ) (inst : RInstance)
    (intens : List ℕ → RInstance → Option (List ℕ × ℕ))
    (hlen : origin.length ≤ target.length)
    (hmem : ∀ i ∈ interior_positions origin, target.getD i 0 ∈ origin) :
    path_relinking origin target inst intens =
      path_relinking_spec origin target inst intens := by
  unfold path_relinking path_relinking_spec
  by_cases hfe : is_feasible_route origin inst = true
  · rw [if_pos hfe, if_pos hfe]
    have haux := pr_loop_eq_spec_aux inst target origin intens
      (route_cost origin inst) hlen hmem (interior_positions origin).length 0
      (by omega)
    rw [List.drop_zero] at haux
    unfold pr_first_hit
    rw [List.range_eq_range']
    exact haux
  · rw [if_neg hfe, if_neg hfe]

theorem path_relinking_eq_spec_witness :
    (([0, 1, 2, 3, 0] : List ℕ).length ≤ ([0, 2, 1, 3, 0] : List ℕ).length ∧
     ∀ i ∈ interior_positions [0, 1, 2, 3, 0],
       ([0, 2, 1, 3, 0] : List ℕ).getD i 0 ∈ ([0, 1, 2, 3, 0] : List ℕ)) ∧
    path_relinking [0, 1, 2, 3, 0] [0, 2, 1, 3, 0] testInstance
        (fun r i => some (r, route_cost r i)) =
      path_relinking_spec [0, 1, 2, 3, 0] [0, 2, 1, 3, 0] testInstance
        (fun r i => some (r, route_cost r i)) :=
  ⟨⟨by decide, by decide⟩,
   path_relinking_eq_spec [0, 1, 2, 3, 0] [0, 2, 1, 3, 0] testInstance
     (fun r i => some (r, route_cost r i)) (by decide) (by decide)⟩

/-- C9: `vnd`, `vns` and `path_relinking` all fail immediately (raise,
modelled by `none`) when the initial/origin route is infeasible, for every
choice of the remaining arguments. -/
theorem infeasible_initial_route_rejected (r t : List ℕ) (inst : RInstance)
    (max_iterations max_shake_tries : ℕ) (pick : ℕ → ℕ)
    (intens : List ℕ → RInstance → Option (List ℕ × ℕ))
    (h : is_feasible_route r inst = false) :
    vnd r inst = none ∧
    vns r inst max_iterations pick max_shake_tries = none ∧
    path_relinking r t inst intens = none := by
  refine ⟨?_, ?_, ?_⟩ <;> simp [vnd, vns, path_relinking, h]

theorem infeasible_initial_route_rejected_witness :
    is_feasible_route [0, 1, 0] testInstance = false ∧
    (vnd [0, 1, 0] testInstance = none ∧
     vns [0, 1, 0] testInstance 50 (fun _ => 0) 10 = none ∧
     path_relinking [0, 1, 0] [0, 1, 0] testInstance
       (fun r i => some (r, route_cost r i)) = none) :=
  ⟨by decide,
   infeasible_initial_route_rejected [0, 1, 0] [0, 1, 0] testInstance 50 10
     (fun _ => 0) (fun r i => some (r, route_cost r i)) (by decide)⟩

/-- The shared blackboard state: best route, best cost and the identifier of
the agent that found it.  `float('inf')` is `⊤ : WithTop ℕ`. -/
structure GlobalBest where
  route : Option (List ℕ)
  cost : WithTop ℕ
  agent_id : Option String
deriving DecidableEq

/-- The initial blackboard: `(None, float('inf'), None)`. -/
def GlobalBest.init : GlobalBest := ⟨none, ⊤, none⟩

/-- `try_update(candidate_route, candidate_cost, agent_id)`: on a strictly
lower cost store a (deep) copy of the candidate and return `True`; otherwise
return `False` with no mutation. -/
def GlobalBest.try_update (s : GlobalBest) (candidate_route : List ℕ)
    (candidate_cost : WithTop ℕ) (agent_id : String) : Bool × GlobalBest :=
  if candidate_cost < s.cost then
    (true, ⟨some candidate_route, candidate_cost, some agent_id⟩)
  else (false, s)

/-- `get()`: a safe copy of the current `(route, cost, agent_id)`; the stored
route is reported as `None` when unset (or empty, Python truthiness). -/
def GlobalBest.get (s : GlobalBest) :
    Option (List ℕ) × WithTop ℕ × Option String :=
  (match s.route with
   | some r => if r = [] then none else some r
   | none => none,
   s.cost, s.agent_id)

/-- `reset()`: back to the initial state. -/
def GlobalBest.reset (_s : GlobalBest) : GlobalBest := ⟨none, ⊤, none⟩

/-- A sequence of `try_update` calls applied in order. -/
def GlobalBest.run_updates :
    GlobalBest → List (List ℕ × WithTop ℕ × String) → GlobalBest
  | s, [] => s
  | s, u :: rest =>
    GlobalBest.run_updates (s.try_update u.1 u.2.1 u.2.2).2 rest

theorem try_update_cost (s : GlobalBest) (r : List ℕ) (c : WithTop ℕ)
    (a : String) : ((s.try_update r c a).2).cost = min c s.cost := by
  unfold GlobalBest.try_update
  rcases lt_trichotomy c s.cost with h | h | h
  · simp [h, min_eq_left (le_of_lt h)]
  · simp [h, min_eq_right (le_of_eq h)]
  · simp [not_lt_of_gt h, min_eq_right (le_of_lt h)]

theorem foldr_min_acc (c b : WithTop ℕ) (L : List (WithTop ℕ)) :
    L.foldr min (min c b) = min c (L.foldr min b) := by
  induction L with
  | nil => rfl
  | cons x L ih =>
    simp only [List.foldr_cons, ih]
    rw [min_left_comm]

theorem run_updates_cost (l : List (List ℕ × WithTop ℕ × String))
    (s : GlobalBest) :
    (GlobalBest.run_updates s l).cost =
      (l.map (fun u => u.2.1)).foldr min s.cost := by
  induction l generalizing s with
  | nil => rfl
  | cons u rest ih =>
    simp only [GlobalBest.run_updates, List.map_cons, List.foldr_cons]
    rw [ih, try_update_cost s u.1 u.2.1 u.2.2, foldr_min_acc]

/-- C3: `try_update` returns `True` exactly on a strict improvement, in which
case it stores the submitted route/cost/agent and the stored cost can only
decrease; on `False` the state is unchanged; and after any sequence of calls
from the initial state the stored cost is the minimum of all submitted costs
(`⊤` when none was submitted). -/
theorem try_update_spec (s : GlobalBest) (r : List ℕ) (c : WithTop ℕ)
    (a : String) :
    ((s.try_update r c a).1 = true ↔ c < s.cost) ∧
    ((s.try_update r c a).1 = true →
      (s.try_update r c a).2 = ⟨some r, c, some a⟩) ∧
    ((s.try_update r c a).1 = false → (s.try_update r c a).2 = s) ∧
    ((s.try_update r c a).2).cost ≤ s.cost ∧
    ∀ l : List (List ℕ × WithTop ℕ × String),
      (GlobalBest.run_updates GlobalBest.init l).cost =
        (l.map (fun u => u.2.1)).foldr min ⊤ := by
  refine ⟨?_, ?_, ?_, ?_, fun l => run_updates_cost l GlobalBest.init⟩
  · unfold GlobalBest.try_update
    by_cases h : c < s.cost <;> simp [h]
  · unfold GlobalBest.try_update
    by_cases h : c < s.cost <;> simp [h]
  · unfold GlobalBest.try_update
    by_cases h : c < s.cost <;> simp [h]
  · rw [try_update_cost]
    exact min_le_right _ _

theorem try_update_spec_witness :
    ((GlobalBest.init.try_update [0, 1, 0] (5 : WithTop ℕ) "a0").1 = true ↔
      (5 : WithTop ℕ) < GlobalBest.init.cost) ∧
    ((GlobalBest.init.try_update [0, 1, 0] (5 : WithTop ℕ) "a0").1 = true →
      (GlobalBest.init.try_update [0, 1, 0] (5 : WithTop ℕ) "a0").2 =
        ⟨some [0, 1, 0], (5 : WithTop ℕ), some "a0"⟩) ∧
    ((GlobalBest.init.try_update [0, 1, 0] (5 : WithTop ℕ) "a0").1 = false →
      (GlobalBest.init.try_update [0, 1, 0] (5 : WithTop ℕ) "a0").2 =
        GlobalBest.init) ∧
    ((GlobalBest.init.try_update [0, 1, 0] (5 : WithTop ℕ) "a0").2).cost ≤
      GlobalBest.init.cost ∧
    ∀ l : List (List ℕ × WithTop ℕ × String),
      (GlobalBest.run_updates GlobalBest.init l).cost =
        (l.map (fun u => u.2.1)).foldr min ⊤ :=
  try_update_spec GlobalBest.init [0, 1, 0] (5 : WithTop ℕ) "a0"

/-- Per-metaheuristic statistics (`ActionStats`). -/
structure ActionStats where
  name : String
  times_selected : ℕ
  times_success : ℕ
  total_improvement : ℤ
  last_improvement : ℤ
deriving DecidableEq

/-- A freshly registered action: all counters zero. -/
def ActionStats.mkNew (name : String) : ActionStats := ⟨name, 0, 0, 0, 0⟩

/-- `success_rate`: successes over selections, `0` when never selected. -/
def ActionStats.success_rate (s : ActionStats) : ℚ :=
  if s.times_selected = 0 then 0
  else (s.times_success : ℚ) / (s.times_selected : ℚ)

/-- `avg_improvement`: cumulative improvement over successes, `0` when never
successful. -/
def ActionStats.avg_improvement (s : ActionStats) : ℚ :=
  if s.times_success = 0 then 0
  else (s.total_improvement : ℚ) / (s.times_success : ℚ)

/-- Lookup in the insertion-ordered action registry (a Python dict is modelled
by an association list). -/
def get_action (actions : List (String × ActionStats)) (name : String) :
    Option ActionStats :=
  (actions.find? (fun p => p.1 == name)).map (fun p => p.2)

/-- In-place overwrite of the entry for `name`, preserving insertion order. -/
def set_action :
    List (String × ActionStats) → String → ActionStats →
      List (String × ActionStats)
  | [], _, _ => []
  | p :: rest, name, s =>
    if p.1 == name then (p.1, s) :: rest else p :: set_action rest name s

/-- `update_after_action(action_name, old_cost, new_cost)`: raises (`none`)
for an unregistered action; otherwise increments the selection count, records
`improvement = old_cost - new_cost` as the last improvement, and on a strict
improvement also increments the success count and the cumulative
improvement. -/
def update_after_action (actions : List (String × ActionStats))
    (action_name : String) (old_cost new_cost : ℤ) :
    Option (List (String × ActionStats)) :=
  match get_action actions action_name with
  | none => none
  | some stats =>
    let improvement := old_cost - new_cost
    let stats1 := { stats with
      times_selected := stats.times_selected + 1
      last_improvement := improvement }
    let stats2 :=
      if improvement > 0 then
        { stats1 with
          times_success := stats1.times_success + 1
          total_improvement := stats1.total_improvement + improvement }
      else stats1
    some (set_action actions action_name stats2)

theorem get_set_action (actions : List (String × ActionStats))
    (name : String) (s s0 : ActionStats)
    (h : get_action actions name = some s0) :
    get_action (set_action actions name s) name = some s := by
  induction actions with
  | nil => simp [get_action, List.find?] at h
  | cons p rest ih =>
    by_cases hp : (p.1 == name) = true
    · unfold set_action
      rw [if_pos hp]
      unfold get_action
      simp only [List.find?_cons]
      simp [hp]
    · have hp2 : (p.1 == name) = false := by simpa using hp
      unfold set_action
      rw [if_neg hp]
      unfold get_action at h ⊢
      simp only [List.find?_cons, hp2, cond_false] at h ⊢
      exact ih h

/-- The statistics record produced by one `update_after_action` step. -/
def updated_stats (stats : ActionStats) (improvement : ℤ) : ActionStats :=
  if improvement > 0 then
    ⟨stats.name, stats.times_selected + 1, stats.times_success + 1,
     stats.total_improvement + improvement, improvement⟩
  else
    ⟨stats.name, stats.times_selected + 1, stats.times_success,
     stats.total_improvement, improvement⟩

theorem update_after_action_eq (actions : List (String × ActionStats))
    (name : String) (old_cost new_cost : ℤ) (stats : ActionStats)
    (h : get_action actions name = some stats) :
    update_after_action actions name old_cost new_cost =
      some (set_action actions name
        (updated_stats stats (old_cost - new_cost))) := by
  simp only [update_after_action, h]
  by_cases himp : old_cost - new_cost > 0
  · rw [if_pos himp]
    rw [updated_stats, if_pos himp]
  · rw [if_neg himp]
    rw [updated_stats, if_neg himp]

/-- C6: `update_after_action` on a registered action always increments the
selection count by exactly 1 and records the improvement `old - new` as the
last improvement; it increments the success count and the cumulative
improvement iff `old - new > 0` (a tie changes neither). -/
theorem update_after_action_spec (actions : List (String × ActionStats))
    (name : String) (old_cost new_cost : ℤ) (stats : ActionStats)
    (h : get_action actions name = some stats) :
    ∃ actions2,
      update_after_action actions name old_cost new_cost = some actions2 ∧
      ∃ s2 : ActionStats, get_action actions2 name = some s2 ∧
        s2.times_selected = stats.times_selected + 1 ∧
        s2.last_improvement = old_cost - new_cost ∧
        (old_cost - new_cost > 0 →
          s2.times_success = stats.times_success + 1 ∧
          s2.total_improvement = stats.total_improvement +
            (old_cost - new_cost)) ∧
        (¬ old_cost - new_cost > 0 →
          s2.times_success = stats.times_success ∧
          s2.total_improvement = stats.total_improvement) := by
  refine ⟨_, update_after_action_eq actions name old_cost new_cost stats h,
    _, get_set_action actions name _ stats h, ?_⟩
  by_cases himp : old_cost - new_cost > 0
  · rw [updated_stats, if_pos himp]
    exact ⟨rfl, rfl, fun _ => ⟨rfl, rfl⟩, fun hc => absurd himp hc⟩
  · rw [updated_stats, if_neg himp]
    exact ⟨rfl, rfl, fun hc => absurd hc himp, fun _ => ⟨rfl, rfl⟩⟩

/-- A one-action registry used by witnesses. -/
def testActions : List (String × ActionStats) := [("X", ActionStats.mkNew "X")]

theorem update_after_action_spec_witness :
    get_action testActions "X" = some (ActionStats.mkNew "X") ∧
    ∃ actions2,
      update_after_action testActions "X" 100 80 = some actions2 ∧
      ∃ s2 : ActionStats, get_action actions2 "X" = some s2 ∧
        s2.times_selected = (ActionStats.mkNew "X").times_selected + 1 ∧
        s2.last_improvement = 100 - 80 ∧
        ((100 : ℤ) - 80 > 0 →
          s2.times_success = (ActionStats.mkNew "X").times_success + 1 ∧
          s2.total_improvement =
            (ActionStats.mkNew "X").total_improvement + (100 - 80)) ∧
        (¬ (100 : ℤ) - 80 > 0 →
          s2.times_success = (ActionStats.mkNew "X").times_success ∧
          s2.total_improvement = (ActionStats.mkNew "X").total_improvement) :=
  ⟨rfl, update_after_action_spec testActions "X" 100 80
    (ActionStats.mkNew "X") rfl⟩

/-- The blended score of one action in `get_all_action_scores`: success rate
scaled to 0-10, plus the raw success count, plus the average improvement
normalized by 100. -/
def action_score (s : ActionStats) : ℚ :=
  s.success_rate * 10 + s.times_success + s.avg_improvement / 100

/-- `get_all_action_scores(epsilon)`: every action's blended score with the
exploration floor `epsilon` added. -/
def get_all_action_scores (actions : List (String × ActionStats))
    (epsilon : ℚ) : List (String × ℚ) :=
  actions.map (fun p => (p.1, action_score p.2 + epsilon))

/-- Python's `max(scores, key=scores.get)`: first maximal key in iteration
order (a later key replaces the running best only on a strictly greater
score). -/
def best_action_go : String → ℚ → List (String × ℚ) → String
  | best, _, [] => best
  | best, bestv, p :: rest =>
    if p.2 > bestv then best_action_go p.1 p.2 rest
    else best_action_go best bestv rest

/-- `get_best_action()`: the argmax-scoring action (scores computed with the
default exploration floor 1.0); raises (`none`) when no action is
registered. -/
def get_best_action (actions : List (String × ActionStats)) : Option String :=
  match get_all_action_scores actions 1 with
  | [] => none
  | p :: rest => some (best_action_go p.1 p.2 rest)

/-- The per-agent belief store.  `current_cost` is only ever read after
`current_route` is set (the cycle raises on an unset route first), so the
pre-initialization `float('inf')` sentinel of the source needs no
representation; `p_best_cost` genuinely starts at `+infinity` and keeps
`WithTop ℕ`.  The two path-relinking target-selection probabilities are
carried for completeness. -/
structure AgentBeliefs where
  agent_id : String
  actions : List (String × ActionStats)
  current_route : Option (List ℕ)
  current_cost : ℕ
  p_best_route : Option (List ℕ)
  p_best_cost : WithTop ℕ
  path_relinking_prob_p_best : ℚ
  path_relinking_prob_g_best : ℚ
deriving DecidableEq

/-- `update_current_solution(route, cost)`. -/
def AgentBeliefs.update_current_solution (b : AgentBeliefs) (route : List ℕ)
    (cost : ℕ) : AgentBeliefs :=
  { b with current_route := some route, current_cost := cost }

/-- `try_update_pbest(route, cost)`: overwrite only on a strictly lower cost,
returning whether it did. -/
def AgentBeliefs.try_update_pbest (b : AgentBeliefs) (route : List ℕ)
    (cost : ℕ) : Bool × AgentBeliefs :=
  if (cost : WithTop ℕ) < b.p_best_cost then
    (true, { b with p_best_cost := (cost : WithTop ℕ),
                    p_best_route := some route })
  else (false, b)

/-- The metaheuristic registry (`METAHEURISTICS` in the source): an abstract
table from action names to actions of the uniform
`(route, instance) -> (route, cost)` signature. -/
def ActionTable : Type :=
  String → Option (List ℕ → RInstance → List ℕ × ℕ)

/-- The `opportunistic_intensification` closure of the cycle: run whichever
action currently scores highest in the agent's beliefs; an empty registry
(`get_best_action` raising) or an unregistered best action (a `KeyError` on
the metaheuristic table) propagates as `none`. -/
def opportunistic_intensification (table : ActionTable) (b : AgentBeliefs)
    (route : List ℕ) (inst : RInstance) : Option (List ℕ × ℕ) :=
  match get_best_action b.actions with
  | none => none
  | some a =>
    match table a with
    | none => none
    | some f => some (f route inst)

/-- Steps 5-6 and the return of the cycle: overwrite the current solution
with the final route/cost, try to update `p_best`, try to update the shared
`g_best` tagged with the agent's identifier, and return the final pair with
the updated belief and blackboard states. -/
def finish_cycle (b : AgentBeliefs) (g : GlobalBest) (final_route : List ℕ)
    (final_cost : ℕ) : (List ℕ × ℕ) × AgentBeliefs × GlobalBest :=
  let b2 := b.update_current_solution final_route final_cost
  let b3 := (b2.try_update_pbest final_route final_cost).2
  let g2 := (g.try_update final_route (final_cost : WithTop ℕ) b3.agent_id).2
  ((final_route, final_cost), b3, g2)

/-- Step 4 of the cycle onward: read the blackboard; without a global best
keep the post-action pair, otherwise path-relink toward it with the
opportunistic intensifier, propagating a raising relink as `none`. -/
def relink_and_update (table : ActionTable) (b : AgentBeliefs)
    (g : GlobalBest) (inst : RInstance) (new_route : List ℕ) (new_cost : ℕ) :
    Option ((List ℕ × ℕ) × AgentBeliefs × GlobalBest) :=
  match (GlobalBest.get g).1 with
  | some g_route =>
    match path_relinking new_route g_route inst
        (opportunistic_intensification table b) with
    | none => none
    | some fp => some (finish_cycle b g fp.1 fp.2)
  | none => some (finish_cycle b g new_route new_cost)

/-- `run_agent_cycle(beliefs, instance)`: decide (the decision method's
randomized outcome is the oracle argument `action_name`), act and re-validate
the returned route through the domain oracle, learn, then relink and update
the incumbents.  Raises (`none`) on an unset initial solution or an
unregistered action name. -/
def run_agent_cycle (table : ActionTable) (action_name : String)
    (b : AgentBeliefs) (g : GlobalBest) (inst : RInstance) :
    Option ((List ℕ × ℕ) × AgentBeliefs × GlobalBest) :=
  match b.current_route with
  | none => none
  | some current_route =>
    let current_cost := b.current_cost
    match table action_name with
    | none => none
    | some action_fn =>
      let res := action_fn current_route inst
      let np : List ℕ × ℕ :=
        if is_feasible_route res.1 inst then (res.1, route_cost res.1 inst)
        else (current_route, current_cost)
      match update_after_action b.actions action_name (current_cost : ℤ)
          (np.2 : ℤ) with
      | none => none
      | some actions2 =>
        let b1 := AgentBeliefs.update_current_solution
          { b with actions := actions2 } np.1 np.2
        relink_and_update table b1 g inst np.1 np.2

/-- C4: when the chosen metaheuristic returns a route the domain oracle
re-validates as infeasible, the cycle proceeds without error from the
pre-action route and cost unchanged (learning records `old = new`, so the
action counts as selected but not successful), and with no global best the
cycle's returned pair is exactly the pre-action pair. -/
theorem infeasible_action_result_discarded (table : ActionTable)
    (action_name : String) (b : AgentBeliefs) (g : GlobalBest)
    (inst : RInstance) (r : List ℕ)
    (f : List ℕ → RInstance → List ℕ × ℕ) (stats : ActionStats)
    (hroute : b.current_route = some r)
    (htable : table action_name = some f)
    (hinfeas : is_feasible_route (f r inst).1 inst = false)
    (hreg : get_action b.actions action_name = some stats) :
    ∃ actions2,
      update_after_action b.actions action_name (b.current_cost : ℤ)
        (b.current_cost : ℤ) = some actions2 ∧
      run_agent_cycle table action_name b g inst =
        relink_and_update table
          (AgentBeliefs.update_current_solution { b with actions := actions2 }
            r b.current_cost) g inst r b.current_cost ∧
      get_action actions2 action_name =
        some { stats with times_selected := stats.times_selected + 1,
                          last_improvement := 0 } ∧
      (g.route = none →
        ∃ rest, run_agent_cycle table action_name b g inst =
          some ((r, b.current_cost), rest)) := by
  have hu := update_after_action_eq b.actions action_name
    (b.current_cost : ℤ) (b.current_cost : ℤ) stats hreg
  rw [sub_self] at hu
  have hrun : run_agent_cycle table action_name b g inst =
      relink_and_update table
        (AgentBeliefs.update_current_solution
          { b with actions := set_action b.actions action_name (updated_stats stats 0) }
          r b.current_cost) g inst r b.current_cost := by
    simp only [run_agent_cycle, hroute, htable, hinfeas, Bool.false_eq_true,
      if_false, hu]
  refine ⟨_, hu, hrun, ?_, ?_⟩
  · have h2 := get_set_action b.actions action_name
      (updated_stats stats 0) stats hreg
    rw [h2]
    simp [updated_stats]
  · intro hg
    rw [hrun]
    simp only [relink_and_update, GlobalBest.get, hg]
    exact ⟨_, rfl⟩

/-- The belief state used by the cycle witnesses. -/
def testBeliefs : AgentBeliefs :=
  ⟨"agent1", testActions, some [0, 1, 2, 3, 0], 10, none, ⊤, 9/10, 1/10⟩

/-- A registry whose only action returns an infeasible route. -/
def testTableBad : ActionTable :=
  fun n => if n == "X" then some (fun _ _ => ([0, 0], 7)) else none

theorem infeasible_action_result_discarded_witness :
    testBeliefs.current_route = some [0, 1, 2, 3, 0] ∧
    is_feasible_route
      ((fun _ _ => ([0, 0], 7)) [0, 1, 2, 3, 0] testInstance).1
      testInstance = false ∧
    ∃ actions2,
      update_after_action testBeliefs.actions "X" (testBeliefs.current_cost : ℤ)
        (testBeliefs.current_cost : ℤ) = some actions2 ∧
      run_agent_cycle testTableBad "X" testBeliefs GlobalBest.init
          testInstance =
        relink_and_update testTableBad
          (AgentBeliefs.update_current_solution
            { testBeliefs with actions := actions2 }
            [0, 1, 2, 3, 0] testBeliefs.current_cost)
          GlobalBest.init testInstance [0, 1, 2, 3, 0]
          testBeliefs.current_cost ∧
      get_action actions2 "X" =
        some { ActionStats.mkNew "X" with
               times_selected := (ActionStats.mkNew "X").times_selected + 1,
               last_improvement := 0 } ∧
      (GlobalBest.init.route = none →
        ∃ rest, run_agent_cycle testTableBad "X" testBeliefs GlobalBest.init
            testInstance = some (([0, 1, 2, 3, 0], testBeliefs.current_cost),
              rest)) :=
  ⟨rfl, by decide,
   infeasible_action_result_discarded testTableBad "X" testBeliefs
     GlobalBest.init testInstance [0, 1, 2, 3, 0]
     (fun _ _ => ([0, 0], 7)) (ActionStats.mkNew "X")
     rfl rfl (by decide) rfl⟩

/-- C10: when the chosen metaheuristic returns a feasible route, the cost the
cycle records into the belief store (as the `new_cost` of
`update_after_action`) and into the agent's current solution is the domain
oracle's re-validated cost of that route, not the cost value the
metaheuristic reported. -/
theorem validated_cost_recorded (table : ActionTable) (action_name : String)
    (b : AgentBeliefs) (g : GlobalBest) (inst : RInstance) (r : List ℕ)
    (f : List ℕ → RInstance → List ℕ × ℕ) (stats : ActionStats)
    (hroute : b.current_route = some r)
    (htable : table action_name = some f)
    (hfeas : is_feasible_route (f r inst).1 inst = true)
    (hreg : get_action b.actions action_name = some stats) :
    ∃ actions2,
      update_after_action b.actions action_name (b.current_cost : ℤ)
        ((route_cost (f r inst).1 inst : ℕ) : ℤ) = some actions2 ∧
      run_agent_cycle table action_name b g inst =
        relink_and_update table
          (AgentBeliefs.update_current_solution { b with actions := actions2 }
            (f r inst).1 (route_cost (f r inst).1 inst)) g inst
          (f r inst).1 (route_cost (f r inst).1 inst) ∧
      (AgentBeliefs.update_current_solution { b with actions := actions2 }
          (f r inst).1 (route_cost (f r inst).1 inst)).current_cost =
        route_cost (f r inst).1 inst := by
  have hu := update_after_action_eq b.actions action_name
    (b.current_cost : ℤ) ((route_cost (f r inst).1 inst : ℕ) : ℤ) stats hreg
  refine ⟨_, hu, ?_, rfl⟩
  simp only [run_agent_cycle, hroute, htable, hfeas, if_true, hu]

/-- A registry whose only action returns the route unchanged but reports a
wrong cost (99). -/
def testTableSame : ActionTable :=
  fun n => if n == "X" then some (fun route _ => (route, 99)) else none

theorem validated_cost_recorded_witness :
    is_feasible_route
      ((fun route _ => (route, 99)) [0, 1, 2, 3, 0] testInstance).1
      testInstance = true ∧
    ∃ actions2,
      update_after_action testBeliefs.actions "X" (testBeliefs.current_cost : ℤ)
        ((route_cost
            ((fun (route : List ℕ) (_ : RInstance) => (route, 99))
              [0, 1, 2, 3, 0] testInstance).1 testInstance : ℕ) : ℤ) =
        some actions2 ∧
      run_agent_cycle testTableSame "X" testBeliefs GlobalBest.init
          testInstance =
        relink_and_update testTableSame
          (AgentBeliefs.update_current_solution
            { testBeliefs with actions := actions2 }
            ((fun (route : List ℕ) (_ : RInstance) => (route, 99))
              [0, 1, 2, 3, 0] testInstance).1
            (route_cost
              ((fun (route : List ℕ) (_ : RInstance) => (route, 99))
                [0, 1, 2, 3, 0] testInstance).1 testInstance))
          GlobalBest.init testInstance
          ((fun (route : List ℕ) (_ : RInstance) => (route, 99))
            [0, 1, 2, 3, 0] testInstance).1
          (route_cost
            ((fun (route : List ℕ) (_ : RInstance) => (route, 99))
              [0, 1, 2, 3, 0] testInstance).1 testInstance) ∧
      (AgentBeliefs.update_current_solution
          { testBeliefs with actions := actions2 }
          ((fun (route : List ℕ) (_ : RInstance) => (route, 99))
            [0, 1, 2, 3, 0] testInstance).1
          (route_cost
            ((fun (route : List ℕ) (_ : RInstance) => (route, 99))
              [0, 1, 2, 3, 0] testInstance).1 testInstance)).current_cost =
        route_cost
          ((fun (route : List ℕ) (_ : RInstance) => (route, 99))
            [0, 1, 2, 3, 0] testInstance).1 testInstance :=
  ⟨by decide,
   validated_cost_recorded testTableSame "X" testBeliefs GlobalBest.init
     testInstance [0, 1, 2, 3, 0] (fun route _ => (route, 99))
     (ActionStats.mkNew "X") rfl rfl (by decide) rfl⟩
